import Mathlib

/-!
Shallow embedding of the session-orchestration core of the
PersonalAssistantCaller repository (src/components/LiveAgent.tsx,
src/types.ts and the storage service), together with theorems about
the transcript assembler, the audio playback scheduler, the tool
dispatcher, the memory store and the session lifecycle.

Machine times (audio clock values, buffer durations) are modelled as
rationals; randomly generated identifiers and wall-clock timestamps are
modelled as natural-number parameters threaded into each operation.
-/

/-- Speaker direction of a transcript entry (types.ts, TranscriptEntry.speaker). -/
inductive Speaker
  | user
  | agent
  deriving DecidableEq, Repr

/-- Returns the opposite speaker direction. -/
def otherSpeaker : Speaker → Speaker
  | Speaker.user => Speaker.agent
  | Speaker.agent => Speaker.user

/-- Agent state enumeration (types.ts, AgentState). -/
inductive AgentState
  | IDLE
  | CONNECTING
  | LISTENING
  | SPEAKING
  | PROCESSING
  | ERROR
  | IN_CALL
  deriving DecidableEq, Repr

/-- Transcript entry (types.ts, TranscriptEntry).  The random string id and
the wall-clock timestamp string of the source are modelled as naturals. -/
structure TranscriptEntry where
  id : Nat
  speaker : Speaker
  text : String
  timestamp : Nat
  isFinal : Bool
  deriving DecidableEq, Repr

/-- Call status (types.ts, CallRecord.status). -/
inductive CallStatus
  | completed
  | failed
  | scheduled
  | pending
  deriving DecidableEq, Repr

/-- Call record (types.ts, CallRecord); id modelled as a natural. -/
structure CallRecord where
  id : Nat
  timestamp : Nat
  recipient : String
  summary : String
  status : CallStatus
  context : String
  deriving DecidableEq, Repr

/-- User memory (types.ts, UserMemory). -/
structure UserMemory where
  preferences : List String
  lastInteraction : Nat
  deriving DecidableEq, Repr

/-- Keeps the first occurrence of each element, in order, dropping later
duplicates and anything already in `seen`.  This is the iteration order of
the JavaScript expression Array.from(new Set(list)). -/
def dedupPreserveFirst (seen : List String) : List String → List String
  | [] => []
  | x :: xs =>
      if x ∈ seen then dedupPreserveFirst seen xs
      else x :: dedupPreserveFirst (x :: seen) xs

/-- Embeds updateMemory (services/storageService.ts:73-81): the stored
preference list becomes Array.from(new Set([...current, ...new])) and the
lastInteraction timestamp is refreshed.  The current memory is passed in
explicitly in place of the localStorage read. -/
def updateMemory (current : UserMemory) (newPreferences : List String)
    (now : Nat) : UserMemory :=
  { preferences := dedupPreserveFirst [] (current.preferences ++ newPreferences)
    lastInteraction := now }

/-- Embeds saveCall (services/storageService.ts:57-62): prepends the new
record to the stored list. -/
def saveCall (call : CallRecord) (calls : List CallRecord) : List CallRecord :=
  call :: calls

/-- Embeds updateTranscript (LiveAgent.tsx:63-85): if the last rendered
entry is from the same speaker and not final it is replaced in place,
otherwise a fresh entry is appended.  `fresh` models the random id and
`now` the timestamp taken at the update. -/
def updateTranscript (speaker : Speaker) (text : String) (isFinal : Bool)
    (fresh now : Nat) (prev : List TranscriptEntry) : List TranscriptEntry :=
  match prev.getLast? with
  | some last =>
      if last.speaker = speaker ∧ last.isFinal = false then
        prev.dropLast ++
          [{ last with text := text, isFinal := isFinal, timestamp := now }]
      else
        prev ++ [{ id := fresh, speaker := speaker, text := text,
                   timestamp := now, isFinal := isFinal }]
  | none =>
      prev ++ [{ id := fresh, speaker := speaker, text := text,
                 timestamp := now, isFinal := isFinal }]

/-- Holds when the transcript list has no trailing non-final entry of the
given speaker, so the next delta for that speaker appends a new entry. -/
def noOpenEntry (speaker : Speaker) (ts : List TranscriptEntry) : Prop :=
  ∀ e, ts.getLast? = some e → e.speaker = speaker → e.isFinal = true

/-- One invocation of updateTranscript, packaged as data. -/
structure UpdateOp where
  speaker : Speaker
  text : String
  isFinal : Bool
  fresh : Nat
  now : Nat
  deriving DecidableEq, Repr

/-- Applies a sequence of updateTranscript invocations in order. -/
def applyUpdates (ops : List UpdateOp) (ts : List TranscriptEntry) :
    List TranscriptEntry :=
  ops.foldl
    (fun acc op => updateTranscript op.speaker op.text op.isFinal op.fresh op.now acc)
    ts

/-- Index `i` holds an entry that the transcript update can no longer touch:
either it is not the last entry, or it is the last entry and is final. -/
def Settled (ts : List TranscriptEntry) (i : Nat) : Prop :=
  i + 1 < ts.length ∨
    (i + 1 = ts.length ∧ Option.map TranscriptEntry.isFinal ts[i]? = some true)

/-- Result payload of one tool invocation (LiveAgent.tsx:207-244).  The
constructors carry the literal response objects built by the source:
genericSuccess is the default object with result "Success". -/
inductive ToolResult
  | genericSuccess
  | callExecuted
  | numberFound (phoneNumber businessName address : String)
  | memorySaved
  deriving DecidableEq, Repr

/-- One structured function-call request from the remote session.  The
argument record is flattened into per-tool fields; fields absent from a
given request are the empty string (respectively none). -/
structure FunctionCall where
  id : Nat
  name : String
  recipientName : String := ""
  phoneNumber : String := ""
  objective : String := ""
  callScript : Option String := none
  query : String := ""
  preference : String := ""
  deriving DecidableEq, Repr

/-- One entry of the batched tool response (LiveAgent.tsx:246-250). -/
structure FunctionResponse where
  id : Nat
  name : String
  response : ToolResult
  deriving DecidableEq, Repr

/-- Mutable component state of LiveAgent (the useState values and useRef
cells declared in LiveAgent.tsx:15-41), together with the externally
stored call list and user memory.  UI-only fields (logs, error text,
analyser) are omitted.  Audio contexts are modelled by presence, the
session handle by an optional session identifier. -/
structure AppState where
  agentState : AgentState
  isMicMuted : Bool
  transcripts : List TranscriptEntry
  activeCallDetails : Option (String × String)
  audioContext : Option Unit
  inputContext : Option Unit
  nextStartTime : ℚ
  sources : List Nat
  session : Option Nat
  inputAcc : String
  outputAcc : String
  isInitializing : Bool
  storedCalls : List CallRecord
  memory : UserMemory
  deriving DecidableEq, Repr

/-- Reads the accumulator of the given speaker direction
(currentInputTransRef respectively currentOutputTransRef). -/
def accOf (sp : Speaker) (s : AppState) : String :=
  match sp with
  | Speaker.user => s.inputAcc
  | Speaker.agent => s.outputAcc

/-- Embeds the inputTranscription branch of onmessage (LiveAgent.tsx:183-187):
the delta is appended to the input accumulator and the accumulated text is
rendered as a non-final user entry. -/
def handleInputDelta (text : String) (fresh now : Nat) (s : AppState) : AppState :=
  let acc := s.inputAcc ++ text
  { s with inputAcc := acc
           transcripts := updateTranscript Speaker.user acc false fresh now s.transcripts }

/-- Embeds the outputTranscription branch of onmessage (LiveAgent.tsx:179-182):
the delta is appended to the output accumulator and the accumulated text is
rendered as a non-final agent entry. -/
def handleOutputDelta (text : String) (fresh now : Nat) (s : AppState) : AppState :=
  let acc := s.outputAcc ++ text
  { s with outputAcc := acc
           transcripts := updateTranscript Speaker.agent acc false fresh now s.transcripts }

/-- Dispatches a transcription delta to the handler of its direction. -/
def handleDelta (sp : Speaker) (text : String) (fresh now : Nat) (s : AppState) :
    AppState :=
  match sp with
  | Speaker.user => handleInputDelta text fresh now s
  | Speaker.agent => handleOutputDelta text fresh now s

/-- Folds a sequence of deltas (text, fresh id, timestamp) for one speaker
through the state. -/
def foldDeltas (sp : Speaker) (deltas : List (String × Nat × Nat)) (s : AppState) :
    AppState :=
  deltas.foldl (fun st d => handleDelta sp d.1 d.2.1 d.2.2 st) s

/-- Concatenation of the delta texts in arrival order. -/
def concatTexts (deltas : List (String × Nat × Nat)) : String :=
  (deltas.map Prod.fst).foldl (fun a b => a ++ b) ""

/-- Embeds the first half of the turnComplete branch (LiveAgent.tsx:190-193):
a nonempty input accumulator is rendered as a final user entry and reset. -/
def finishInput (fu now : Nat) (s : AppState) : AppState :=
  if s.inputAcc ≠ "" then
    { s with transcripts := updateTranscript Speaker.user s.inputAcc true fu now s.transcripts
             inputAcc := "" }
  else s

/-- Embeds the second half of the turnComplete branch (LiveAgent.tsx:194-198):
a nonempty output accumulator is rendered as a final agent entry and reset,
and the agent state is set back to LISTENING. -/
def finishOutput (fa now : Nat) (s : AppState) : AppState :=
  if s.outputAcc ≠ "" then
    { s with transcripts := updateTranscript Speaker.agent s.outputAcc true fa now s.transcripts
             outputAcc := ""
             agentState := AgentState.LISTENING }
  else s

/-- Embeds the turnComplete branch of onmessage (LiveAgent.tsx:189-199):
the input accumulator is finalized first, then the output accumulator.
`fu` and `fa` model the fresh ids of the two potential renders, `now` the
timestamp. -/
def handleTurnComplete (fu fa now : Nat) (s : AppState) : AppState :=
  finishOutput fa now (finishInput fu now s)

/-- Start time chosen for the next buffer (LiveAgent.tsx:278):
max(nextStartTimeRef.current, outputCtx.currentTime). -/
def scheduledStart (s : AppState) (clock : ℚ) : ℚ :=
  max s.nextStartTime clock

/-- Embeds the audio output branch of onmessage (LiveAgent.tsx:258-282):
outside IN_CALL the agent state becomes SPEAKING, the buffer is scheduled
at max(cursor, clock), the cursor advances by the buffer duration and the
source joins the active set.  `clock` is the output context currentTime at
the moment of scheduling, `dur` the decoded buffer duration. -/
def handleAudioChunk (clock dur : ℚ) (srcId : Nat) (s : AppState) : AppState :=
  let s1 :=
    if s.agentState ≠ AgentState.IN_CALL then
      { s with agentState := AgentState.SPEAKING }
    else s
  let start := scheduledStart s1 clock
  { s1 with nextStartTime := start + dur
            sources := s1.sources ++ [srcId] }

/-- Successive buffer scheduling (LiveAgent.tsx:278-280) iterated over a
whole arrival sequence: from a cursor value and a list of
(clock at arrival, buffer duration) pairs, produces the list of
(scheduled start, duration) pairs. -/
def scheduleAll (cursor : ℚ) : List (ℚ × ℚ) → List (ℚ × ℚ)
  | [] => []
  | (clock, dur) :: rest =>
      (max cursor clock, dur) :: scheduleAll (max cursor clock + dur) rest

/-- Embeds the interruption branch of onmessage (LiveAgent.tsx:285-292):
every active source is stopped (returned as the first component), the
active set is cleared, the cursor is reset to zero, the partial output
transcript is cleared and the agent state returns to LISTENING. -/
def handleInterruption (s : AppState) : List Nat × AppState :=
  (s.sources,
    { s with sources := []
             nextStartTime := 0
             outputAcc := ""
             agentState := AgentState.LISTENING })

/-- Embeds stopAudio (LiveAgent.tsx:103-120): both audio contexts are
closed, every pending source is stopped (returned as the first component)
and the set cleared, the agent state becomes IDLE, the active-call details
are cleared and the initialization flag is reset.  The playback cursor and
the session handle are left untouched, exactly as in the source. -/
def stopAudioTeardown (s : AppState) : List Nat × AppState :=
  (s.sources,
    { s with audioContext := none
             inputContext := none
             sources := []
             agentState := AgentState.IDLE
             activeCallDetails := none
             isInitializing := false })

/-- Embeds the guard and synchronous head of connectToLiveAPI
(LiveAgent.tsx:122-127): when already initializing or not IDLE the call
returns unchanged and opens nothing (second component false); otherwise the
initialization flag is set, the state becomes CONNECTING and a session open
is initiated (second component true). -/
def connectBegin (s : AppState) : AppState × Bool :=
  if s.isInitializing = true ∨ s.agentState ≠ AgentState.IDLE then (s, false)
  else ({ s with isInitializing := true, agentState := AgentState.CONNECTING }, true)

/-- Embeds the batched-response send guard (LiveAgent.tsx:253-255): the
response batch is delivered to the session currently held by sessionRef
when one is present, and dropped otherwise.  The result names the session
that receives the batch. -/
def sendToolResponses (s : AppState) (responses : List FunctionResponse) :
    Option (Nat × List FunctionResponse) :=
  match s.session with
  | some sid => some (sid, responses)
  | none => none

/-- Embeds one iteration of the tool-call loop (LiveAgent.tsx:205-251):
the result starts as the generic success object and is overwritten by the
recognized branches; execute_call records a call, switches to IN_CALL and
auto-mutes; save_user_preference merges the preference into memory.
`freshId` models the random call-record id, `now` the timestamp. -/
def handleToolCall (fc : FunctionCall) (freshId now : Nat) (s : AppState) :
    FunctionResponse × AppState :=
  if fc.name = "execute_call" then
    let s1 := { s with activeCallDetails := some (fc.recipientName, fc.phoneNumber)
                       agentState := AgentState.IN_CALL
                       isMicMuted := true }
    let newCall : CallRecord :=
      { id := freshId
        timestamp := now
        recipient := fc.recipientName
        summary := "Called " ++ fc.phoneNumber ++ ". Objective: " ++ fc.objective ++ "."
        status := CallStatus.completed
        context :=
          match fc.callScript with
          | some c => if c = "" then fc.objective else c
          | none => fc.objective }
    ({ id := fc.id, name := fc.name, response := ToolResult.callExecuted },
      { s1 with storedCalls := saveCall newCall s1.storedCalls })
  else if fc.name = "find_business_number" then
    ({ id := fc.id, name := fc.name,
       response := ToolResult.numberFound "555-0199" fc.query "123 Mock Lane" }, s)
  else if fc.name = "save_user_preference" then
    ({ id := fc.id, name := fc.name, response := ToolResult.memorySaved },
      { s with memory := updateMemory s.memory [fc.preference] now })
  else
    ({ id := fc.id, name := fc.name, response := ToolResult.genericSuccess }, s)

/-- Embeds the whole tool-call loop (LiveAgent.tsx:202-251): one response is
collected per request, in request order.  Fresh record ids are drawn from a
counter starting at `freshId`. -/
def handleToolCalls : List FunctionCall → Nat → Nat → AppState →
    List FunctionResponse × AppState
  | [], _, _, s => ([], s)
  | fc :: rest, freshId, now, s =>
      let r := handleToolCall fc freshId now s
      let rs := handleToolCalls rest (freshId + 1) now r.2
      (r.1 :: rs.1, rs.2)

/-- A quiescent component state, used as the base of concrete examples. -/
def exIdle : AppState :=
  { agentState := AgentState.IDLE
    isMicMuted := false
    transcripts := []
    activeCallDetails := none
    audioContext := none
    inputContext := none
    nextStartTime := 0
    sources := []
    session := none
    inputAcc := ""
    outputAcc := ""
    isInitializing := false
    storedCalls := []
    memory := { preferences := [], lastInteraction := 0 } }

/-- Concrete mid-session state with a nonzero playback cursor. -/
def exMidSession : AppState :=
  { exIdle with agentState := AgentState.SPEAKING
                audioContext := some ()
                inputContext := some ()
                nextStartTime := 5
                sources := [1, 2]
                session := some 7 }

/-- Concrete state inside a simulated call with pending output transcript. -/
def exInCall : AppState :=
  { exIdle with agentState := AgentState.IN_CALL
                isMicMuted := true
                activeCallDetails := some ("Alice", "555-0100")
                outputAcc := "Hello"
                session := some 7 }

/-- Concrete buffer arrival sequence (clock, duration) for witnesses. -/
def exChunks : List (ℚ × ℚ) := [(0, 1), (2, 3), (1, 2)]

/-- Concrete delta sequence (text, fresh id, timestamp) for witnesses. -/
def exDeltas : List (String × Nat × Nat) := [("Hel", 1, 1), ("lo", 2, 2)]

/-- Concrete transcript with one finalized entry, for witnesses. -/
def exTranscript : List TranscriptEntry :=
  [{ id := 0, speaker := Speaker.user, text := "hi", timestamp := 0, isFinal := true }]

/-- Concrete update sequence, for witnesses. -/
def exOps : List UpdateOp :=
  [{ speaker := Speaker.user, text := "more", isFinal := false, fresh := 1, now := 1 },
   { speaker := Speaker.agent, text := "ok", isFinal := true, fresh := 2, now := 2 }]

/-- Concrete tool-call batch from the spec scenario: an execute_call
followed by a save_user_preference in one turn. -/
def exBatch : List FunctionCall :=
  [{ id := 1, name := "execute_call", recipientName := "Dentist",
     phoneNumber := "555-0100", objective := "book appointment" },
   { id := 2, name := "save_user_preference", preference := "prefers mornings" }]

/-- Concrete tool call with an unrecognized operation name. -/
def exUnknownCall : FunctionCall := { id := 3, name := "unknown_tool" }

/-! ## Helper lemmas about the transcript update -/

/-- A transcript whose last entry is a non-final entry of the speaker is
updated in place: only the text, final flag and timestamp change. -/
theorem updateTranscript_replace (sp : Speaker) (t : String) (b : Bool)
    (f n : Nat) (ts0 : List TranscriptEntry) (e : TranscriptEntry)
    (hsp : e.speaker = sp) (hnf : e.isFinal = false) :
    updateTranscript sp t b f n (ts0 ++ [e]) =
      ts0 ++ [{ e with text := t, isFinal := b, timestamp := n }] := by
  simp only [updateTranscript, List.getLast?_concat]
  rw [if_pos ⟨hsp, hnf⟩, List.dropLast_concat]

/-- A transcript with no open entry of the speaker is extended by a fresh
entry. -/
theorem updateTranscript_append (sp : Speaker) (t : String) (b : Bool)
    (f n : Nat) (ts : List TranscriptEntry) (h : noOpenEntry sp ts) :
    updateTranscript sp t b f n ts =
      ts ++ [{ id := f, speaker := sp, text := t, timestamp := n, isFinal := b }] := by
  unfold updateTranscript
  split
  next last hl =>
    rw [if_neg]
    intro hc
    have ht := h last hl hc.1
    rw [ht] at hc
    exact absurd hc.2 (by decide)
  next hl => rfl

theorem accOf_handleDelta (sp : Speaker) (t : String) (f n : Nat) (s : AppState) :
    accOf sp (handleDelta sp t f n s) = accOf sp s ++ t := by
  cases sp <;> rfl

theorem accOf_other_handleDelta (sp : Speaker) (t : String) (f n : Nat) (s : AppState) :
    accOf (otherSpeaker sp) (handleDelta sp t f n s) = accOf (otherSpeaker sp) s := by
  cases sp <;> rfl

theorem transcripts_handleDelta (sp : Speaker) (t : String) (f n : Nat) (s : AppState) :
    (handleDelta sp t f n s).transcripts =
      updateTranscript sp (accOf sp s ++ t) false f n s.transcripts := by
  cases sp <;> rfl

/-- Folding deltas of one speaker over a state whose transcript ends in an
open (non-final) entry of that speaker keeps exactly that one entry open,
appending each delta text to it and to the accumulator, and leaves the
other accumulator untouched. -/
theorem foldDeltas_open_entry (sp : Speaker) (deltas : List (String × Nat × Nat)) :
    ∀ (s : AppState) (ts0 : List TranscriptEntry) (e : TranscriptEntry),
      s.transcripts = ts0 ++ [e] → e.speaker = sp → e.isFinal = false →
      accOf sp s = e.text →
      ∃ e2 : TranscriptEntry,
        (foldDeltas sp deltas s).transcripts = ts0 ++ [e2] ∧
        e2.speaker = sp ∧ e2.isFinal = false ∧
        e2.text = (deltas.map Prod.fst).foldl (fun a b => a ++ b) e.text ∧
        accOf sp (foldDeltas sp deltas s) = e2.text ∧
        accOf (otherSpeaker sp) (foldDeltas sp deltas s) = accOf (otherSpeaker sp) s := by
  induction deltas with
  | nil =>
    intro s ts0 e h1 h2 h3 h4
    exact ⟨e, h1, h2, h3, by simp, h4, rfl⟩
  | cons d rest ih =>
    intro s ts0 e h1 h2 h3 h4
    have hstep : (handleDelta sp d.1 d.2.1 d.2.2 s).transcripts =
        ts0 ++ [{ e with text := e.text ++ d.1, isFinal := false, timestamp := d.2.2 }] := by
      rw [transcripts_handleDelta, h4, h1,
        updateTranscript_replace sp (e.text ++ d.1) false d.2.1 d.2.2 ts0 e h2 h3]
    have hacc1 : accOf sp (handleDelta sp d.1 d.2.1 d.2.2 s) =
        TranscriptEntry.text { e with text := e.text ++ d.1, isFinal := false, timestamp := d.2.2 } := by
      rw [accOf_handleDelta, h4]
    obtain ⟨e2, g1, g2, g3, g4, g5, g6⟩ :=
      ih (handleDelta sp d.1 d.2.1 d.2.2 s) ts0
        { e with text := e.text ++ d.1, isFinal := false, timestamp := d.2.2 }
        hstep h2 rfl hacc1
    have hfold : foldDeltas sp (d :: rest) s =
        foldDeltas sp rest (handleDelta sp d.1 d.2.1 d.2.2 s) := rfl
    refine ⟨e2, g1, g2, g3, ?_, g5, ?_⟩
    · rw [g4]
      simp only [List.map_cons, List.foldl_cons]
    · rw [hfold, g6, accOf_other_handleDelta]

/-- Folding a nonempty delta sequence of one speaker over a clean state
(empty accumulator, no open entry) appends exactly one open entry whose
text is the concatenation of the deltas. -/
theorem foldDeltas_clean (sp : Speaker) (s0 : AppState) (ts0 : List TranscriptEntry)
    (d0 : String × Nat × Nat) (ds : List (String × Nat × Nat))
    (hts : s0.transcripts = ts0) (hacc : accOf sp s0 = "")
    (hopen : noOpenEntry sp ts0) :
    ∃ e1 : TranscriptEntry,
      (foldDeltas sp (d0 :: ds) s0).transcripts = ts0 ++ [e1] ∧
      e1.speaker = sp ∧ e1.isFinal = false ∧ e1.text = concatTexts (d0 :: ds) ∧
      accOf sp (foldDeltas sp (d0 :: ds) s0) = e1.text ∧
      accOf (otherSpeaker sp) (foldDeltas sp (d0 :: ds) s0) =
        accOf (otherSpeaker sp) s0 := by
  have hstep : (handleDelta sp d0.1 d0.2.1 d0.2.2 s0).transcripts =
      ts0 ++ [{ id := d0.2.1, speaker := sp, text := "" ++ d0.1,
                timestamp := d0.2.2, isFinal := false }] := by
    rw [transcripts_handleDelta, hacc, hts,
      updateTranscript_append sp ("" ++ d0.1) false d0.2.1 d0.2.2 ts0 hopen]
  have hacc1 : accOf sp (handleDelta sp d0.1 d0.2.1 d0.2.2 s0) = "" ++ d0.1 := by
    rw [accOf_handleDelta, hacc]
  obtain ⟨e2, g1, g2, g3, g4, g5, g6⟩ :=
    foldDeltas_open_entry sp ds (handleDelta sp d0.1 d0.2.1 d0.2.2 s0) ts0
      { id := d0.2.1, speaker := sp, text := "" ++ d0.1,
        timestamp := d0.2.2, isFinal := false }
      hstep rfl rfl hacc1
  have hfold : foldDeltas sp (d0 :: ds) s0 =
      foldDeltas sp ds (handleDelta sp d0.1 d0.2.1 d0.2.2 s0) := rfl
  refine ⟨e2, g1, g2, g3, ?_, g5, ?_⟩
  · rw [g4]
    simp only [concatTexts, List.map_cons, List.foldl_cons]
  · rw [hfold, g6, accOf_other_handleDelta]

/-- C1: for every sequence of incremental transcript deltas for one speaker
within one turn (the other accumulator being empty and no entry of that
speaker left open), the rendered transcript gains exactly one entry for
that speaker: after each delta the turn occupies a single non-final entry
holding the deltas so far, and on the turn-complete signal that entry is
final and its text is the concatenation of all deltas in arrival order. -/
theorem c1_transcript_single_entry_per_turn
    (sp : Speaker) (s0 : AppState) (ts0 : List TranscriptEntry)
    (deltas : List (String × Nat × Nat)) (fu fa now : Nat)
    (hts : s0.transcripts = ts0)
    (hacc : accOf sp s0 = "")
    (hoth : accOf (otherSpeaker sp) s0 = "")
    (hopen : noOpenEntry sp ts0)
    (hne : deltas ≠ [])
    (hcne : concatTexts deltas ≠ "") :
    (∃ e : TranscriptEntry,
        (handleTurnComplete fu fa now (foldDeltas sp deltas s0)).transcripts =
          ts0 ++ [e] ∧
        e.speaker = sp ∧ e.isFinal = true ∧ e.text = concatTexts deltas) ∧
    (∀ pre suf, deltas = pre ++ suf → pre ≠ [] →
      ∃ e1 : TranscriptEntry,
        (foldDeltas sp pre s0).transcripts = ts0 ++ [e1] ∧
        e1.speaker = sp ∧ e1.isFinal = false ∧ e1.text = concatTexts pre) := by
  constructor
  · obtain ⟨d, dt, rfl⟩ : ∃ d dt, deltas = d :: dt := by
      cases deltas with
      | nil => exact absurd rfl hne
      | cons d dt => exact ⟨d, dt, rfl⟩
    obtain ⟨e1, g1, g2, g3, g4, g5, g6⟩ := foldDeltas_clean sp s0 ts0 d dt hts hacc hopen
    have htext : e1.text ≠ "" := by rw [g4]; exact hcne
    cases sp with
    | user =>
      have hin : (foldDeltas Speaker.user (d :: dt) s0).inputAcc = e1.text := g5
      have hout : (foldDeltas Speaker.user (d :: dt) s0).outputAcc = "" := g6.trans hoth
      have hcond : (foldDeltas Speaker.user (d :: dt) s0).inputAcc ≠ "" := by
        rw [hin]; exact htext
      have h1 : finishInput fu now (foldDeltas Speaker.user (d :: dt) s0) =
          { foldDeltas Speaker.user (d :: dt) s0 with
            transcripts := ts0 ++ [{ e1 with isFinal := true, timestamp := now }]
            inputAcc := "" } := by
        unfold finishInput
        rw [if_pos hcond, hin, g1,
          updateTranscript_replace Speaker.user e1.text true fu now ts0 e1 g2 g3]
      have h2 : handleTurnComplete fu fa now (foldDeltas Speaker.user (d :: dt) s0) =
          { foldDeltas Speaker.user (d :: dt) s0 with
            transcripts := ts0 ++ [{ e1 with isFinal := true, timestamp := now }]
            inputAcc := "" } := by
        unfold handleTurnComplete
        rw [h1]
        unfold finishOutput
        rw [if_neg]
        intro hcc
        exact hcc hout
      refine ⟨{ e1 with isFinal := true, timestamp := now }, ?_, g2, rfl, g4⟩
      rw [h2]
    | agent =>
      have hinz : (foldDeltas Speaker.agent (d :: dt) s0).inputAcc = "" := g6.trans hoth
      have houtv : (foldDeltas Speaker.agent (d :: dt) s0).outputAcc = e1.text := g5
      have hcond : (foldDeltas Speaker.agent (d :: dt) s0).outputAcc ≠ "" := by
        rw [houtv]; exact htext
      have h1 : finishInput fu now (foldDeltas Speaker.agent (d :: dt) s0) =
          foldDeltas Speaker.agent (d :: dt) s0 := by
        unfold finishInput
        rw [if_neg]
        intro hcc
        exact hcc hinz
      have h2 : handleTurnComplete fu fa now (foldDeltas Speaker.agent (d :: dt) s0) =
          { foldDeltas Speaker.agent (d :: dt) s0 with
            transcripts := ts0 ++ [{ e1 with isFinal := true, timestamp := now }]
            outputAcc := ""
            agentState := AgentState.LISTENING } := by
        unfold handleTurnComplete
        rw [h1]
        unfold finishOutput
        rw [if_pos hcond, houtv, g1,
          updateTranscript_replace Speaker.agent e1.text true fa now ts0 e1 g2 g3]
      refine ⟨{ e1 with isFinal := true, timestamp := now }, ?_, g2, rfl, g4⟩
      rw [h2]
  · intro pre suf hps hpre
    cases pre with
    | nil => exact absurd rfl hpre
    | cons p pt =>
      obtain ⟨e1, g1, g2, g3, g4, g5, g6⟩ := foldDeltas_clean sp s0 ts0 p pt hts hacc hopen
      exact ⟨e1, g1, g2, g3, g4⟩

/-- Witness for C1: two user deltas followed by turn completion, starting
from the quiescent state, produce a single final user entry reading the
concatenation of the deltas. -/
theorem c1_witness :
    exDeltas ≠ [] ∧ concatTexts exDeltas ≠ "" ∧
    (∃ e : TranscriptEntry,
        (handleTurnComplete 3 4 5 (foldDeltas Speaker.user exDeltas exIdle)).transcripts =
          [] ++ [e] ∧
        e.speaker = Speaker.user ∧ e.isFinal = true ∧ e.text = concatTexts exDeltas) := by
  refine ⟨by decide, by decide, ?_⟩
  exact (c1_transcript_single_entry_per_turn Speaker.user exIdle [] exDeltas 3 4 5 rfl rfl rfl
    (fun e he => Option.noConfusion he) (by decide) (by decide)).1

/-! ## Helper lemmas about settled transcript entries -/

theorem dropLast_getElem?_eq {α : Type} (l : List α) (i : Nat)
    (h : i + 1 < l.length) : l.dropLast[i]? = l[i]? := by
  rw [List.getElem?_dropLast, if_pos (by omega)]

theorem getElem?_last_of_getLast? {α : Type} :
    ∀ (l : List α) (a : α) (i : Nat), l.getLast? = some a → i + 1 = l.length →
      l[i]? = some a := by
  intro l
  induction l with
  | nil => intro a i h hi; simp at h
  | cons x xs ih =>
    intro a i h hi
    cases xs with
    | nil =>
      have hx : x = a := by simpa using h
      have hz : i = 0 := by simpa using hi
      simp [hx, hz]
    | cons y ys =>
      rw [List.getLast?_cons_cons] at h
      cases i with
      | zero => simp at hi
      | succ n =>
        have hn : n + 1 = (y :: ys).length := by
          simp only [List.length_cons] at hi ⊢
          omega
        simpa using ih a n h hn

/-- One transcript update leaves every settled index untouched and settled. -/
theorem updateTranscript_settled (sp : Speaker) (t : String) (b : Bool)
    (f n : Nat) (ts : List TranscriptEntry) (i : Nat) (h : Settled ts i) :
    (updateTranscript sp t b f n ts)[i]? = ts[i]? ∧
      Settled (updateTranscript sp t b f n ts) i := by
  have hi : i < ts.length := by
    rcases h with h1 | ⟨h1, _⟩
    · omega
    · omega
  unfold updateTranscript
  split
  next last hl =>
    by_cases hc : last.speaker = sp ∧ last.isFinal = false
    · rw [if_pos hc]
      have hne : ts ≠ [] := by rintro rfl; simp at hl
      have hpos : 0 < ts.length := List.length_pos.mpr hne
      have hlen : (ts.dropLast ++
          [{ last with text := t, isFinal := b, timestamp := n }]).length = ts.length := by
        simp only [List.length_append, List.length_dropLast, List.length_cons,
          List.length_nil]
        omega
      rcases h with h1 | ⟨h1, h2⟩
      · constructor
        · rw [List.getElem?_append_left (by simp only [List.length_dropLast]; omega)]
          exact dropLast_getElem?_eq ts i h1
        · exact Or.inl (by omega)
      · exfalso
        have hgl := getElem?_last_of_getLast? ts last i hl h1
        rw [hgl] at h2
        have : last.isFinal = true := Option.some.inj h2
        rw [hc.2] at this
        exact Bool.noConfusion this
    · rw [if_neg hc]
      refine ⟨List.getElem?_append_left hi, Or.inl ?_⟩
      simp only [List.length_append, List.length_cons, List.length_nil]
      omega
  next hl =>
    refine ⟨List.getElem?_append_left hi, Or.inl ?_⟩
    simp only [List.length_append, List.length_cons, List.length_nil]
    omega

/-- C10: a settled transcript entry (final, or no longer the last entry) is
never modified by any later sequence of transcript updates: the update
operation only replaces the most recent entry and only when that entry is
non-final and from the same speaker. -/
theorem c10_settled_entries_immutable (ops : List UpdateOp)
    (ts : List TranscriptEntry) (i : Nat) (h : Settled ts i) :
    (applyUpdates ops ts)[i]? = ts[i]? := by
  induction ops generalizing ts with
  | nil => rfl
  | cons op rest ih =>
    have step := updateTranscript_settled op.speaker op.text op.isFinal op.fresh op.now ts i h
    have hfold : applyUpdates (op :: rest) ts =
        applyUpdates rest (updateTranscript op.speaker op.text op.isFinal op.fresh op.now ts) :=
      rfl
    rw [hfold, ih _ step.2, step.1]

/-- Witness for C10: a finalized single entry survives a later user delta
and a later agent finalization unchanged. -/
theorem c10_witness :
    Settled exTranscript 0 ∧ (applyUpdates exOps exTranscript)[0]? = exTranscript[0]? :=
  ⟨Or.inr ⟨rfl, rfl⟩, c10_settled_entries_immutable exOps exTranscript 0 (Or.inr ⟨rfl, rfl⟩)⟩

/-! ## Helper lemmas about memory deduplication -/

theorem mem_dedupPreserveFirst (a : String) :
    ∀ (l seen : List String),
      a ∈ dedupPreserveFirst seen l ↔ a ∈ l ∧ a ∉ seen := by
  intro l
  induction l with
  | nil => intro seen; simp [dedupPreserveFirst]
  | cons x xs ih =>
    intro seen
    by_cases hx : x ∈ seen
    · rw [dedupPreserveFirst, if_pos hx, ih]
      constructor
      · rintro ⟨hm, hs⟩
        exact ⟨List.mem_cons_of_mem x hm, hs⟩
      · rintro ⟨hm, hs⟩
        rcases List.mem_cons.mp hm with rfl | hm2
        · exact absurd hx hs
        · exact ⟨hm2, hs⟩
    · rw [dedupPreserveFirst, if_neg hx]
      constructor
      · intro hm
        rcases List.mem_cons.mp hm with rfl | hm2
        · exact ⟨List.mem_cons_self a xs, hx⟩
        · obtain ⟨h1, h2⟩ := (ih (x :: seen)).mp hm2
          refine ⟨List.mem_cons_of_mem x h1, ?_⟩
          intro hcontra
          exact h2 (List.mem_cons_of_mem x hcontra)
      · rintro ⟨hm, hs⟩
        rcases List.mem_cons.mp hm with rfl | hm2
        · exact List.mem_cons_self a _
        · by_cases hax : a = x
          · rw [hax]; exact List.mem_cons_self x _
          · refine List.mem_cons_of_mem x ((ih (x :: seen)).mpr ⟨hm2, ?_⟩)
            intro hcontra
            rcases List.mem_cons.mp hcontra with h3 | h3
            · exact hax h3
            · exact hs h3

theorem nodup_dedupPreserveFirst :
    ∀ (l seen : List String), (dedupPreserveFirst seen l).Nodup := by
  intro l
  induction l with
  | nil => intro seen; simp [dedupPreserveFirst]
  | cons x xs ih =>
    intro seen
    by_cases hx : x ∈ seen
    · rw [dedupPreserveFirst, if_pos hx]
      exact ih seen
    · rw [dedupPreserveFirst, if_neg hx]
      refine List.nodup_cons.mpr ⟨?_, ih (x :: seen)⟩
      intro hmem
      exact ((mem_dedupPreserveFirst x xs (x :: seen)).mp hmem).2 (List.mem_cons_self x seen)

/-- C8: save_user_preference is idempotent on stored memory: merging the
same preference text twice leaves exactly one stored copy, and the
preference list produced by any updateMemory call is duplicate-free. -/
theorem c8_preference_dedup (m : UserMemory) (p : String)
    (ps : List String) (t1 t2 t3 : Nat) :
    ((updateMemory (updateMemory m [p] t1) [p] t2).preferences.count p = 1) ∧
    (updateMemory m ps t3).preferences.Nodup := by
  constructor
  · apply List.count_eq_one_of_mem
    · exact nodup_dedupPreserveFirst _ _
    · show p ∈ dedupPreserveFirst [] ((updateMemory m [p] t1).preferences ++ [p])
      rw [mem_dedupPreserveFirst]
      exact ⟨List.mem_append_right _ (List.mem_cons_self p []), List.not_mem_nil p⟩
  · exact nodup_dedupPreserveFirst _ _

/-! ## Helper lemmas about playback scheduling -/

theorem scheduleAll_length (chunks : List (ℚ × ℚ)) :
    ∀ cursor : ℚ, (scheduleAll cursor chunks).length = chunks.length := by
  induction chunks with
  | nil => intro cursor; rfl
  | cons cd rest ih =>
    intro cursor
    cases cd with
    | mk clock dur => simp [scheduleAll, ih]

/-- Every start time produced by the scheduler is at least the cursor value
it started from, provided durations are nonnegative. -/
theorem scheduleAll_start_ge (chunks : List (ℚ × ℚ)) :
    ∀ (cursor : ℚ), (∀ cd ∈ chunks, 0 ≤ cd.2) →
      ∀ (j : Nat) (hj : j < (scheduleAll cursor chunks).length),
        cursor ≤ ((scheduleAll cursor chunks).get ⟨j, hj⟩).1 := by
  induction chunks with
  | nil => intro cursor _ j hj; simp [scheduleAll] at hj
  | cons cd rest ih =>
    intro cursor h j hj
    cases cd with
    | mk clock dur =>
      cases j with
      | zero => exact le_max_left cursor clock
      | succ j2 =>
        have hd : 0 ≤ dur := h (clock, dur) (List.mem_cons_self _ _)
        have hj2 : j2 < (scheduleAll (max cursor clock + dur) rest).length := by
          have := hj
          simp only [scheduleAll, List.length_cons] at this
          omega
        have hrec := ih (max cursor clock + dur)
          (fun cd hm => h cd (List.mem_cons_of_mem _ hm)) j2 hj2
        have hstep : cursor ≤ max cursor clock + dur := by
          have := le_max_left cursor clock
          linarith
        exact le_trans hstep hrec

/-- C2: buffers are scheduled at max(cursor, clock) and the cursor advances
by each buffer duration, so for nonnegative durations the schedule is
non-overlapping: every later buffer starts no earlier than any earlier
buffer's start plus that buffer's duration (in particular the N-th start is
at least the (N-1)-th start plus its duration). -/
theorem c2_playback_no_overlap (cursor : ℚ) (chunks : List (ℚ × ℚ))
    (hdur : ∀ cd ∈ chunks, 0 ≤ cd.2) :
    ∀ (i j : Nat) (hij : i < j) (hj : j < (scheduleAll cursor chunks).length),
      ((scheduleAll cursor chunks).get ⟨i, Nat.lt_trans hij hj⟩).1 +
        ((scheduleAll cursor chunks).get ⟨i, Nat.lt_trans hij hj⟩).2 ≤
        ((scheduleAll cursor chunks).get ⟨j, hj⟩).1 := by
  induction chunks generalizing cursor with
  | nil =>
    intro i j hij hj
    simp [scheduleAll] at hj
  | cons cd rest ih =>
    intro i j hij hj
    cases cd with
    | mk clock dur =>
      cases j with
      | zero => omega
      | succ j2 =>
        have hj2 : j2 < (scheduleAll (max cursor clock + dur) rest).length := by
          have := hj
          simp only [scheduleAll, List.length_cons] at this
          omega
        cases i with
        | zero =>
          have hrest : ∀ cd ∈ rest, 0 ≤ cd.2 :=
            fun cd hm => hdur cd (List.mem_cons_of_mem _ hm)
          exact scheduleAll_start_ge rest (max cursor clock + dur) hrest j2 hj2
        | succ i2 =>
          have hij2 : i2 < j2 := by omega
          exact ih (max cursor clock + dur)
            (fun cd hm => hdur cd (List.mem_cons_of_mem _ hm)) i2 j2 hij2 hj2

/-- Witness for C2: three concrete buffers scheduled from cursor zero; the
third starts no earlier than the first ends. -/
theorem c2_witness :
    (∀ cd ∈ exChunks, 0 ≤ cd.2) ∧
    ((scheduleAll 0 exChunks).get ⟨0, by decide⟩).1 +
      ((scheduleAll 0 exChunks).get ⟨0, by decide⟩).2 ≤
      ((scheduleAll 0 exChunks).get ⟨2, by decide⟩).1 :=
  ⟨by decide, c2_playback_no_overlap 0 exChunks (by decide) 0 2 (by decide) (by decide)⟩

/-! ## Helper lemmas about turn completion and tool dispatch -/

theorem finishInput_outputAcc (fu now : Nat) (s : AppState) :
    (finishInput fu now s).outputAcc = s.outputAcc := by
  unfold finishInput
  split
  · rfl
  · rfl

theorem finishInput_agentState (fu now : Nat) (s : AppState) :
    (finishInput fu now s).agentState = s.agentState := by
  unfold finishInput
  split
  · rfl
  · rfl

theorem handleToolCall_id_name (fc : FunctionCall) (g m : Nat) (t : AppState) :
    (handleToolCall fc g m t).1.id = fc.id ∧
      (handleToolCall fc g m t).1.name = fc.name := by
  unfold handleToolCall
  split_ifs
  · exact ⟨rfl, rfl⟩
  · exact ⟨rfl, rfl⟩
  · exact ⟨rfl, rfl⟩
  · exact ⟨rfl, rfl⟩

/-- C3: on an interruption event every source in the active set is stopped
and the set cleared, the scheduling cursor is reset to zero, and a buffer
arriving afterwards with a nonnegative clock is scheduled exactly at the
current playback clock, not at the stale pre-interruption cursor. -/
theorem c3_interruption_resets_schedule (s : AppState) (clock dur : ℚ)
    (srcId : Nat) (hclock : 0 ≤ clock) :
    (handleInterruption s).1 = s.sources ∧
    (handleInterruption s).2.sources = [] ∧
    (handleInterruption s).2.nextStartTime = 0 ∧
    scheduledStart (handleInterruption s).2 clock = clock ∧
    (handleAudioChunk clock dur srcId (handleInterruption s).2).nextStartTime =
      clock + dur := by
  refine ⟨rfl, rfl, rfl, ?_, ?_⟩
  · show max (0 : ℚ) clock = clock
    exact max_eq_right hclock
  · show max (0 : ℚ) clock + dur = clock + dur
    rw [max_eq_right hclock]

/-- Witness for C3: interrupting the concrete mid-session state (cursor 5,
two active sources) stops both sources and schedules the next buffer at the
clock value 4. -/
theorem c3_witness :
    (0 : ℚ) ≤ 4 ∧
    ((handleInterruption exMidSession).1 = exMidSession.sources ∧
     (handleInterruption exMidSession).2.sources = [] ∧
     (handleInterruption exMidSession).2.nextStartTime = 0 ∧
     scheduledStart (handleInterruption exMidSession).2 4 = 4 ∧
     (handleAudioChunk 4 2 9 (handleInterruption exMidSession).2).nextStartTime =
       4 + 2) :=
  ⟨by norm_num, c3_interruption_resets_schedule exMidSession 4 2 9 (by norm_num)⟩

/-- C4 counterexample: stopAudio does not reset the playback cursor; from a
state with cursor 5 the cursor is still 5 (not 0) after the teardown, so
the claim that stop() resets the monotonic playback cursor is false. -/
theorem c4_counterexample :
    (stopAudioTeardown exMidSession).2.nextStartTime = 5 ∧ (5 : ℚ) ≠ 0 :=
  ⟨rfl, by norm_num⟩

/-- C4 amended: calling stop() from any state tears down both audio
contexts, stops and clears all pending playback sources, clears the
active-call details, resets the initialization flag and transitions to
Idle, and is safe to repeat (a second call returns no sources to stop and
leaves the state fixed); the playback cursor is left unchanged rather than
reset (it is re-initialized only by the next connect). -/
theorem c4_stop_teardown (s : AppState) :
    (stopAudioTeardown s).1 = s.sources ∧
    (stopAudioTeardown s).2.audioContext = none ∧
    (stopAudioTeardown s).2.inputContext = none ∧
    (stopAudioTeardown s).2.sources = [] ∧
    (stopAudioTeardown s).2.agentState = AgentState.IDLE ∧
    (stopAudioTeardown s).2.activeCallDetails = none ∧
    (stopAudioTeardown s).2.isInitializing = false ∧
    (stopAudioTeardown s).2.nextStartTime = s.nextStartTime ∧
    stopAudioTeardown (stopAudioTeardown s).2 = ([], (stopAudioTeardown s).2) :=
  ⟨rfl, rfl, rfl, rfl, rfl, rfl, rfl, rfl, rfl⟩

/-- C5 counterexample: with the state IN_CALL and a pending output
transcript, processing turn completion sets the visible state to LISTENING,
so the claim that the state remains InCall for every remote event processed
while InCall is false. -/
theorem c5_counterexample :
    exInCall.agentState = AgentState.IN_CALL ∧
    (handleTurnComplete 0 1 2 exInCall).agentState = AgentState.LISTENING :=
  ⟨rfl, by decide⟩

/-- C5 amended: an audio chunk processed while InCall leaves the visible
state InCall, and outside InCall sets it to Speaking; but turn completion
with a nonempty output accumulator sets the state to Listening regardless
of the current state (including InCall), and with an empty output
accumulator leaves the state unchanged. -/
theorem c5_amended_state_transitions (s : AppState) (clock dur : ℚ)
    (srcId : Nat) (fu fa now : Nat) :
    (s.agentState = AgentState.IN_CALL →
      (handleAudioChunk clock dur srcId s).agentState = AgentState.IN_CALL) ∧
    (s.agentState ≠ AgentState.IN_CALL →
      (handleAudioChunk clock dur srcId s).agentState = AgentState.SPEAKING) ∧
    (s.outputAcc ≠ "" →
      (handleTurnComplete fu fa now s).agentState = AgentState.LISTENING) ∧
    (s.outputAcc = "" →
      (handleTurnComplete fu fa now s).agentState = s.agentState) := by
  refine ⟨?_, ?_, ?_, ?_⟩
  · intro h
    simp only [handleAudioChunk]
    rw [if_neg (fun hc => hc h)]
    exact h
  · intro h
    simp only [handleAudioChunk]
    rw [if_pos h]
  · intro h
    have hcond : (finishInput fu now s).outputAcc ≠ "" := by
      rw [finishInput_outputAcc]
      exact h
    show (finishOutput fa now (finishInput fu now s)).agentState = AgentState.LISTENING
    unfold finishOutput
    rw [if_pos hcond]
  · intro h
    have hcond : ¬ (finishInput fu now s).outputAcc ≠ "" := by
      rw [finishInput_outputAcc, h]
      exact fun hc => hc rfl
    show (finishOutput fa now (finishInput fu now s)).agentState = s.agentState
    unfold finishOutput
    rw [if_neg hcond]
    exact finishInput_agentState fu now s

/-- Witness for C5 (amended): in the concrete in-call state, an audio chunk
keeps the state IN_CALL while turn completion moves it to LISTENING. -/
theorem c5_witness :
    (handleAudioChunk 1 2 9 exInCall).agentState = AgentState.IN_CALL ∧
    (handleTurnComplete 0 1 2 exInCall).agentState = AgentState.LISTENING :=
  ⟨(c5_amended_state_transitions exInCall 1 2 9 0 1 2).1 rfl,
   (c5_amended_state_transitions exInCall 1 2 9 0 1 2).2.2.1 (by decide)⟩

/-- C6: the tool dispatcher produces exactly one response entry per request,
in request order, keyed by the originating request id (and carrying its
name); a request whose operation name is unrecognized still receives the
generic success response rather than being dropped. -/
theorem c6_one_response_per_request (fcs : List FunctionCall) (freshId now : Nat)
    (s : AppState) :
    ((handleToolCalls fcs freshId now s).1.map FunctionResponse.id =
      fcs.map FunctionCall.id) ∧
    ((handleToolCalls fcs freshId now s).1.map FunctionResponse.name =
      fcs.map FunctionCall.name) ∧
    (∀ (fc : FunctionCall) (g m : Nat) (t : AppState),
      fc.name ≠ "execute_call" → fc.name ≠ "find_business_number" →
      fc.name ≠ "save_user_preference" →
      (handleToolCall fc g m t).1 =
        { id := fc.id, name := fc.name, response := ToolResult.genericSuccess }) := by
  refine ⟨?_, ?_, ?_⟩
  · induction fcs generalizing freshId s with
    | nil => rfl
    | cons fc rest ih =>
      simp only [handleToolCalls, List.map_cons]
      rw [(handleToolCall_id_name fc freshId now s).1, ih]
  · induction fcs generalizing freshId s with
    | nil => rfl
    | cons fc rest ih =>
      simp only [handleToolCalls, List.map_cons]
      rw [(handleToolCall_id_name fc freshId now s).2, ih]
  · intro fc g m t h1 h2 h3
    unfold handleToolCall
    rw [if_neg h1, if_neg h2, if_neg h3]

/-- Witness for C6: the spec scenario batch (execute_call then
save_user_preference) yields two responses keyed 1 and 2 in order, and an
unknown operation receives the generic success response. -/
theorem c6_witness :
    ((handleToolCalls exBatch 0 0 exIdle).1.map FunctionResponse.id = [1, 2]) ∧
    (handleToolCall exUnknownCall 0 0 exIdle).1 =
      { id := 3, name := "unknown_tool", response := ToolResult.genericSuccess } :=
  ⟨((c6_one_response_per_request exBatch 0 0 exIdle).1).trans (by decide),
   (c6_one_response_per_request exBatch 0 0 exIdle).2.2 exUnknownCall 0 0 exIdle
     (by decide) (by decide) (by decide)⟩

/-- C7 (code behaviour at the failing input): stopAudio does not clear the
session reference, so the batched tool response produced after the
simulated delay still passes the send guard and is delivered to the old
session (id 7) instead of being dropped. -/
theorem c7_late_tool_response_not_dropped :
    (stopAudioTeardown exMidSession).2.session = some 7 ∧
    sendToolResponses (stopAudioTeardown exMidSession).2
        [{ id := 1, name := "save_user_preference",
           response := ToolResult.memorySaved }] =
      some (7, [{ id := 1, name := "save_user_preference",
                  response := ToolResult.memorySaved }]) :=
  ⟨rfl, rfl⟩

/-- C9: connect() is a no-op when already initializing or not Idle, and two
rapid calls from the quiescent state open exactly one session: the first
proceeds, the second is blocked by the initialization flag it set. -/
theorem c9_connect_idempotency_guard (s s2 : AppState)
    (hidle : s.agentState = AgentState.IDLE) (hinit : s.isInitializing = false)
    (hblock : s2.isInitializing = true ∨ s2.agentState ≠ AgentState.IDLE) :
    (connectBegin s).2 = true ∧
    (connectBegin (connectBegin s).1).2 = false ∧
    connectBegin s2 = (s2, false) := by
  have hA : connectBegin s =
      ({ s with isInitializing := true, agentState := AgentState.CONNECTING }, true) := by
    unfold connectBegin
    rw [if_neg]
    rintro (h1 | h2)
    · rw [hinit] at h1
      exact Bool.noConfusion h1
    · exact h2 hidle
  refine ⟨by rw [hA], ?_, ?_⟩
  · rw [hA]
    unfold connectBegin
    rw [if_pos (Or.inl rfl)]
  · unfold connectBegin
    rw [if_pos hblock]

/-- Witness for C9: from the quiescent state the first connect proceeds and
the immediate second call is a no-op; a mid-session state is also blocked. -/
theorem c9_witness :
    (connectBegin exIdle).2 = true ∧
    (connectBegin (connectBegin exIdle).1).2 = false ∧
    connectBegin exMidSession = (exMidSession, false) :=
  c9_connect_idempotency_guard exIdle exMidSession rfl rfl
    (Or.inr fun h => AgentState.noConfusion h)
